import Mathlib

/-!
Shallow embedding of the iterable-pipeline core of the `ww` library
(`ww/tools/iterables.py` and `ww/wrappers/iterables.py`), together with
theorems settling the behavioural claims about it.

Iterables are modelled as finite `List`s; generators that raise Python
exceptions are modelled with `Except PyErr`.  Machine behaviour of
CPython builtins that the source relies on (`itertools.islice`,
`itertools.dropwhile`, `itertools.takewhile`, `itertools.groupby`,
`collections.deque` with `maxlen`, `sorted`, `zip(range(n), it)`,
`enumerate`) is translated explicitly below, next to the function that
uses it.
-/

namespace WW

/-- Python exception classes raised by the embedded code, with the
diagnostic payload each error message carries:
`indexError i` is `IndexError("Index \"%d\" out of range" % i)` from
`at_index`; `valueErrorNegativeStep s` is
`ValueError("The step can not be negative: '%s' given" % s)` from
`iterslice`; `valueErrorIslice` stands for the `ValueError`s raised by
`itertools.islice` itself on a non-int/negative index or a non-positive
step; `runtimeErrorIterAfterTee` is the `RuntimeError` raised by
`IterableWrapper.__iter__` after `tee`. -/
inductive PyErr where
  | indexError (index : Int)
  | valueErrorNegativeStep (step : Int)
  | valueErrorIslice
  | runtimeErrorIterAfterTee
  deriving DecidableEq, Repr

deriving instance DecidableEq for Except

/-! ### `firsts` (ww/tools/iterables.py, lines 309-331)

```
i = 0
for i, item in zip(range(items), iterable):
    yield item
for x in range(items - (i + 1)):
    yield default
```

`zip(range(items), iterable)` yields the first `min items (length l)`
elements; after the loop the variable `i` holds the last loop index,
or its pre-loop value `0` when the loop body never ran.  The final
`range` pads with `items - (i + 1)` defaults (empty for a negative
argument, like Python's `range`).  The `int(items)` coercion and the
`items < 0` `ValueError` branch of the source are outside the claims,
which quantify over `n ≥ 0`, so `items` is taken as a `Nat`. -/
def firsts (l : List α) (items : Nat) (default : α) : List α :=
  let taken := l.take items
  let i : Nat := if taken.isEmpty then 0 else taken.length - 1
  taken ++ List.replicate (items - (i + 1)) default

/-! ### `IterableWrapper.count` fallback loop (ww/wrappers/iterables.py, lines 667-683)

```
try:
    return len(self.iterator)
except TypeError:
    for i, _ in enumerate(self.iterator, 1):
        pass
    return i
```

`self.iterator` is always an `itertools.chain` object, which has no
`__len__`, so `len` raises `TypeError` and the fallback loop runs.  The
loop variable `i` takes the values `1, 2, ...` as elements are
consumed; after the loop, `return i` reads the last bound value — and
raises `NameError` when the loop body never ran, because `i` was never
bound.  The unbound state is modelled as `none`. -/
def count_fallback (l : List α) : Option Nat :=
  l.foldl (fun i _ => some (i.getD 0 + 1)) none

/-! ### `at_index` (ww/tools/iterables.py, lines 231-246)

```
try:
    if index < 0:
        return deque(iterable, maxlen=abs(index)).popleft()
    return next(itertools.islice(iterable, index, index + 1))
except (StopIteration, IndexError) as e:
    raise_from(IndexError('Index "%d" out of range' % index), e)
```

`deque(l, maxlen=m)` keeps the last `min m (length l)` elements, i.e.
`l.drop (l.length - m)`; `popleft` returns its head or raises
`IndexError` when it is empty.  `next(islice(l, i, i + 1))` returns the
element at position `i` or raises `StopIteration`. -/
def at_index (l : List α) (index : Int) : Except PyErr α :=
  if index < 0 then
    ((l.drop (l.length - index.natAbs)).head?).elim (.error (.indexError index)) .ok
  else
    ((l.drop index.toNat).head?).elim (.error (.indexError index)) .ok

/-! ### Slice boundaries and `starts_when` / `stops_when` (ww/tools/iterables.py, lines 49-96)

A slice boundary that is not an `int` is either a callable or an
arbitrary value; `starts_when` / `stops_when` turn a non-callable
condition into the predicate `lambda x: x == cond_value`:

```
if not callable(condition):
    cond_value = condition
    def condition(x):
        return x == cond_value
return itertools.dropwhile(lambda x: not condition(x), iterable)   # starts_when
return itertools.takewhile(lambda x: not condition(x), iterable)   # stops_when
```

`Cond.val` records the Python truthiness of the value in `truthy`
(functions are always truthy), because `iterslice` tests `... and stop`
on a non-int stop boundary. -/
inductive Cond (α : Type u) where
  | fn (p : α → Bool)
  | val (v : α) (truthy : Bool)

/-- Truthiness of a condition object: callables are truthy, other values
carry their own truthiness. -/
def Cond.isTruthy : Cond α → Bool
  | .fn _ => true
  | .val _ t => t

/-- Test of a condition against an element, after the non-callable to
equality-predicate conversion performed by `starts_when`/`stops_when`. -/
def Cond.test [DecidableEq α] : Cond α → α → Bool
  | .fn p, x => p x
  | .val v _, x => decide (x = v)

/-- Embedding of `starts_when(iterable, condition)`. -/
def starts_when [DecidableEq α] (l : List α) (c : Cond α) : List α :=
  l.dropWhile (fun x => !(c.test x))

/-- Embedding of `stops_when(iterable, condition)`. -/
def stops_when [DecidableEq α] (l : List α) (c : Cond α) : List α :=
  l.takeWhile (fun x => !(c.test x))

/-- A `start` slice boundary: an `int` (the `isinstance(start, int)`
branch of `iterslice`) or any other object, handled as a condition. -/
inductive StartB (α : Type u) where
  | int (n : Int)
  | cond (c : Cond α)

/-- A `stop` slice boundary: an `int`, the default `None`, or any other
object, handled as a condition. -/
inductive StopB (α : Type u) where
  | int (n : Int)
  | none_
  | cond (c : Cond α)

/-- Helper for `itertools.islice`: every `step`-th element of `l`
starting with the first, with `skip` elements still to drop before the
next kept one. -/
def everyNthFrom (step : Nat) : Nat → List α → List α
  | _, [] => []
  | 0, x :: xs => x :: everyNthFrom step (step - 1) xs
  | n + 1, _ :: xs => everyNthFrom step n xs

/-- Embedding of `itertools.islice(l, start, stop, step)`.  CPython
validates the arguments when `islice` is called: `start` and `stop`
must be `None` or a non-negative `int`, and `step` must be a positive
`int`; otherwise `ValueError` is raised before any element is read.
The result holds the elements at indices `start, start + step, ...`
that are `< stop`. -/
def islice (l : List α) (start : Int) (stop : Option Int) (step : Int) : Except PyErr (List α) :=
  if start < 0 || step < 1 then .error .valueErrorIslice
  else
    match stop with
    | none => .ok (everyNthFrom step.toNat 0 (l.drop start.toNat))
    | some s =>
        if s < 0 then .error .valueErrorIslice
        else .ok (everyNthFrom step.toNat 0 ((l.take s.toNat).drop start.toNat))

/-! ### `iterslice` (ww/tools/iterables.py, lines 265-293)

```
if step < 0:
    raise ValueError("The step can not be negative: '%s' given" % step)
if not isinstance(start, int):
    if not isinstance(stop, int) and stop:
        return stops_when(starts_when(iterable, start), stop)        # [Callable:Callable]
    return starts_when(itertools.islice(iterable, None, stop, step), start)  # [Callable:int]
if not isinstance(stop, int) and stop:
    return stops_when(itertools.islice(iterable, start, None, step), stop)   # [int:Callable]
return itertools.islice(iterable, start, stop, step)                 # [int:int]
```

A falsy non-int `stop` (such as `None`, the default) falls through to
the `islice` call: `None` is a valid `islice` stop meaning unbounded,
while a falsy non-int non-`None` value makes `islice` itself raise
`ValueError`. -/
def iterslice [DecidableEq α] (l : List α) (start : StartB α) (stop : StopB α)
    (step : Int) : Except PyErr (List α) :=
  if step < 0 then .error (.valueErrorNegativeStep step)
  else
    match start with
    | .cond cs =>
        match stop with
        | .cond ct =>
            if ct.isTruthy then .ok (stops_when (starts_when l cs) ct)
            else .error .valueErrorIslice
        | .none_ => (islice l 0 none step).map (fun s => starts_when s cs)
        | .int n => (islice l 0 (some n) step).map (fun s => starts_when s cs)
    | .int a =>
        match stop with
        | .cond ct =>
            if ct.isTruthy then (islice l a none step).map (fun s => stops_when s ct)
            else .error .valueErrorIslice
        | .none_ => islice l a none step
        | .int n => islice l a (some n) step

/-! ### `chunks` (ww/tools/iterables.py, lines 183-191)

```
it = iter(iterable)
while True:
    yield cast(itertools.chain([next(it)], itertools.islice(it, chunksize - 1)))
```

Each pass pulls one element with `next(it)` (ending the generator on
`StopIteration` when the source is exhausted) and then up to
`chunksize - 1` further elements with `islice`.  With `chunksize = 0`
the `islice(it, -1)` call raises `ValueError` while building the first
chunk of a non-empty source.  The default `cast=tuple` materialises
each chunk, modelled as a `List`. -/
def chunks : List α → Nat → Except PyErr (List (List α))
  | [], _ => .ok []
  | x :: xs, n =>
      if n = 0 then .error .valueErrorIslice
      else (chunks (xs.drop (n - 1)) n).map (fun cs => (x :: xs.take (n - 1)) :: cs)
  termination_by l => l.length
  decreasing_by simp only [List.length_cons, List.length_drop]; omega

/-! ### `window` (ww/tools/iterables.py, lines 194-228)

```
iterable = iter(iterable)
d = deque(itertools.islice(iterable, size), size)
if cast:
    yield cast(d)
    for x in iterable:
        d.append(x)
        yield cast(d)
```

The deque is created from the first `size` elements with
`maxlen=size`; each later `append` evicts the oldest element once the
deque is full.  The default `cast=tuple` snapshots the deque at each
yield, modelled as a `List`. -/
def dequeAppend (d : List α) (x : α) (maxlen : Nat) : List α :=
  let d2 := d ++ [x]
  if maxlen < d2.length then d2.drop (d2.length - maxlen) else d2

/-- The yield loop of `window`: one snapshot of the deque, then one more
snapshot after each remaining element is appended. -/
def windowGo (size : Nat) (d : List α) : List α → List (List α)
  | [] => [d]
  | x :: xs => d :: windowGo size (dequeAppend d x size) xs

/-- Embedding of `window(iterable, size, cast=tuple)`. -/
def window (l : List α) (size : Nat) : List (List α) :=
  windowGo size (l.take size) (l.drop size)

/-! ### `skip_duplicates` (ww/tools/iterables.py, lines 99-179)

```
fingerprints = fingerprints or set()
for x in iterable:
    fingerprint = key(x)
    if fingerprint not in fingerprints:
        yield x
        fingerprints.add(fingerprint)
```

(The `key is None` fast path of the source is the same loop with
`fingerprint = x`; the `TypeError` re-raising applies only to
unhashable fingerprints, outside the claims, which assume hashable
fingerprints.)  The fingerprint set is modelled as the list of
fingerprints added so far, plus the externally supplied seed. -/
def skip_duplicates [DecidableEq β] (key : α → β) (fingerprints : List β) :
    List α → List α
  | [] => []
  | x :: xs =>
      if key x ∈ fingerprints then skip_duplicates key fingerprints xs
      else x :: skip_duplicates key (key x :: fingerprints) xs

/-! ### `groupby` (ww/tools/iterables.py, lines 299-304)

```
sorted_iterable = sorted(iterable, key=keyfunc, reverse=reverse)
for key, group in itertools.groupby(sorted_iterable, keyfunc):
    yield key, cast(group)
```

`sorted(key=keyfunc, reverse=reverse)` is Python's stable sort:
ascending in `keyfunc` by default, descending when `reverse`, equal
keys keeping their source order either way.  It is modelled by the
stable `List.insertionSort`.  `itertools.groupby` then groups maximal
runs of consecutive elements with equal keys, and the default
`cast=tuple` materialises each group, modelled as a `List`. -/
def sortByKey [LinearOrder β] (keyfunc : α → β) (reverse : Bool) (l : List α) : List α :=
  if reverse then l.insertionSort (fun a b => keyfunc b ≤ keyfunc a)
  else l.insertionSort (fun a b => keyfunc a ≤ keyfunc b)

/-- Embedding of `itertools.groupby(l, keyfunc)` with every group
materialised: maximal runs of consecutive elements with equal keys,
labelled by the run's key.  An element either joins the following run,
when its key equals that run's key, or opens a new run. -/
def groupRuns [DecidableEq β] (keyfunc : α → β) : List α → List (β × List α)
  | [] => []
  | x :: xs =>
      match groupRuns keyfunc xs with
      | [] => [(keyfunc x, [x])]
      | (k, g) :: rest =>
          if keyfunc x = k then (k, x :: g) :: rest
          else (keyfunc x, [x]) :: (k, g) :: rest

/-- Embedding of `groupby(iterable, keyfunc, reverse, cast=tuple)`. -/
def groupby [LinearOrder β] (l : List α) (keyfunc : α → β) (reverse : Bool := false) :
    List (β × List α) :=
  groupRuns keyfunc (sortByKey keyfunc reverse l)

/-! ### `IterableWrapper` state (ww/wrappers/iterables.py)

The wrapper owns `self.iterator` (the not-yet-consumed part of the
source, modelled as a `List`) and the `self._tee_called` flag set by
`tee`. -/
structure IterableWrapper (α : Type u) where
  iterator : List α
  teeCalled : Bool
  deriving DecidableEq, Repr

namespace IterableWrapper

/-- Embedding of `IterableWrapper.__iter__` (lines 239-258):

```
if self._tee_called:
    raise RuntimeError("You can't iterate on a g object after g.tee "
                       "has been called on it.")
return self.iterator
``` -/
def iter (g : IterableWrapper α) : Except PyErr (List α) :=
  if g.teeCalled then .error .runtimeErrorIterAfterTee else .ok g.iterator

/-- Embedding of `IterableWrapper.next` (lines 261-277):
`return next(self.iterator, default)` — one element is pulled from the
inner iterator, or `default` is returned when it is exhausted; the
`_tee_called` flag is not consulted.  Returns the value together with
the advanced wrapper state. -/
def next (g : IterableWrapper α) (default : α) : α × IterableWrapper α :=
  match g.iterator with
  | [] => (default, g)
  | x :: xs => (x, { g with iterator := xs })

/-- Embedding of `IterableWrapper.tee` (lines 392-414):

```
cls = self.__class__
gen = cls(cls(x) for x in itertools.tee(self.iterator, num))
self._tee_called = True
return gen
```

`itertools.tee` hands out `num` independent copies of the remaining
elements; each is wrapped in a fresh `IterableWrapper`, and the flag is
set on the original.  Returns the copies together with the mutated
original. -/
def tee (g : IterableWrapper α) (num : Nat) :
    List (IterableWrapper α) × IterableWrapper α :=
  (List.replicate num ⟨g.iterator, false⟩, { g with teeCalled := true })

end IterableWrapper

/-! ## Helper lemmas -/

/-- The head of `l.drop n` is the element of `l` at position `n`. -/
theorem head?_drop (l : List α) (n : Nat) : (l.drop n).head? = l[n]? := by
  induction l generalizing n with
  | nil => simp
  | cons x xs ih =>
    cases n with
    | zero => simp
    | succ m => simp only [List.drop_succ_cons, List.getElem?_cons_succ]; exact ih m

/-- `islice` with step `1` keeps every element. -/
theorem everyNthFrom_one (l : List α) : everyNthFrom 1 0 l = l := by
  induction l with
  | nil => rfl
  | cons x xs ih => simp [everyNthFrom, ih]

/-- The `count` fallback loop, once its counter is bound, counts the
remaining elements on top of the bound value. -/
theorem count_foldl_some (l : List α) (n : Nat) :
    l.foldl (fun i _ => some (i.getD 0 + 1)) (some n) = some (n + l.length) := by
  induction l generalizing n with
  | nil => rfl
  | cons x xs ih =>
    rw [List.foldl_cons]
    show List.foldl _ (some (n + 1)) xs = _
    rw [ih]
    congr 1
    simp only [List.length_cons]
    omega

/-! ## Claims -/

/-- C10: the fallback counting loop of `IterableWrapper.count` never
binds its counter on an empty remainder, so the call ends with an
unbound-variable (`NameError`) read — modelled as `none` — instead of
returning `0`; it returns the remaining element count exactly when at
least one element remains. -/
theorem count_fallback_spec (l : List α) :
    count_fallback l = if l.length = 0 then none else some l.length := by
  cases l with
  | nil => rfl
  | cons x xs =>
    have h1 : count_fallback (x :: xs)
        = xs.foldl (fun i _ => some (i.getD 0 + 1)) (some 1) := rfl
    rw [h1, count_foldl_some]
    simp [Nat.add_comm]

/-- C2 (failing input): `firsts` on an empty source with `n = 1` yields
no item at all — the loop counter `i` keeps its pre-loop value `0`, so
the padding loop runs `1 - (0 + 1) = 0` times — although the claim
requires exactly one item (the default). -/
theorem firsts_empty_missing_item : firsts ([] : List Nat) 1 0 = [] := rfl

/-- C3 (counterexample): after `tee`, pulling one element from the
original handle with next-with-default does not fail: it returns the
first remaining element (`0` here) and advances the handle, with no
`RuntimeError`. -/
theorem next_after_tee_succeeds_cex :
    (((IterableWrapper.mk [0, 1, 4] false).tee 2).2).next 99
      = (0, IterableWrapper.mk [1, 4] true) := rfl

/-- C3 (amended): after `tee` has been invoked, starting iteration on
the original handle fails with a `RuntimeError`-class error on that
read attempt, but next-with-default performs no check: it returns the
next element (or the default when exhausted) exactly as before the
fork. -/
theorem tee_freeze_amended (g : IterableWrapper α) (num : Nat) (d : α) :
    ((g.tee num).2).iter = .error .runtimeErrorIterAfterTee ∧
    ((g.tee num).2).next d
      = (match g.iterator with
         | [] => (d, (g.tee num).2)
         | x :: xs => (x, ⟨xs, true⟩)) := by
  cases g with
  | mk it tc =>
    refine ⟨rfl, ?_⟩
    cases it <;> rfl

/-- C4 (counterexample): indexing `[10, 20]` at `-5` returns `10` (the
first buffered element) instead of raising the `IndexError`-class error
the claim requires for a sequence with fewer than `abs(-5)` elements. -/
theorem at_index_neg_short_cex : at_index [10, 20] (-5 : Int) = .ok 10 := rfl

/-- C4 (amended): for `i ≥ 0`, `at_index` returns the element at
position `i`, or an `IndexError` carrying `i` when the sequence has at
most `i` elements; for `i < 0` it buffers the last `min (len, abs i)`
elements and returns the first of those, i.e. the element at position
`len - min (len, abs i)` (`= max 0 (len + i)`), raising an `IndexError`
carrying `i` only when the sequence is empty. -/
theorem at_index_amended (l : List α) :
    (∀ n : Nat, at_index l (n : Int)
        = (l[n]?).elim (Except.error (.indexError (n : Int))) Except.ok) ∧
    (∀ m : Nat, 1 ≤ m → at_index l (-(m : Int))
        = (l[l.length - m]?).elim (Except.error (.indexError (-(m : Int)))) Except.ok) := by
  constructor
  · intro n
    have hneg : ¬((n : Int) < 0) := by omega
    rw [at_index, if_neg hneg, Int.toNat_natCast, head?_drop]
  · intro m hm
    have hneg : (-(m : Int)) < 0 := by omega
    have habs : (-(m : Int)).natAbs = m := by simp
    rw [at_index, if_pos hneg, habs, head?_drop]

/-- C4 (witness): the amended theorem applied to `[10, 20, 30]` at
index `-2`. -/
theorem at_index_amended_witness :
    at_index [10, 20, 30] (-(2 : Int))
      = (([10, 20, 30] : List Nat)[List.length [10, 20, 30] - 2]?).elim
          (Except.error (.indexError (-(2 : Int)))) Except.ok :=
  (at_index_amended [10, 20, 30]).2 2 (by decide)

/-- C5 (counterexample): a slice whose start boundary is neither an
integer nor a callable (here the value `1`) does not raise a
`ValueError`-class error: `iterslice` hands it to `starts_when`, which
converts it to the equality predicate `x == 1`, so the slice yields
`[1, 2]`. -/
theorem iterslice_value_boundary_cex :
    iterslice [0, 1, 2] (.cond (.val 1 true)) .none_ 1 = .ok [1, 2] := by decide

/-- C5 (amended): a negative step makes `iterslice` fail with a
`ValueError`-class error carrying the step, before the source is
consulted, whatever the boundaries are.  A start or stop boundary that
is neither an integer nor a callable is not itself rejected by
`iterslice`: a value used as start (whatever its truthiness), or a
truthy value used as stop, is converted to the equality predicate
`lambda x: x == value`, so the slice starts (resp. stops) at the first
equal element; a falsy non-int non-callable stop instead falls through
to `itertools.islice`, which raises a `ValueError`-class error of its
own. -/
theorem iterslice_boundary_amended [DecidableEq α] :
    (∀ (l : List α) (start : StartB α) (stop : StopB α) (step : Int), step < 0 →
        iterslice l start stop step = .error (.valueErrorNegativeStep step)) ∧
    (∀ (l : List α) (v : α) (t : Bool),
        iterslice l (.cond (.val v t)) .none_ 1
          = .ok (l.dropWhile (fun x => !(decide (x = v))))) ∧
    (∀ (l : List α) (v : α),
        iterslice l (.int 0) (.cond (.val v true)) 1
          = .ok (l.takeWhile (fun x => !(decide (x = v))))) ∧
    (∀ (l : List α) (start : StartB α) (v : α) (step : Int), 0 ≤ step →
        iterslice l start (.cond (.val v false)) step = .error .valueErrorIslice) := by
  refine ⟨?_, ?_, ?_, ?_⟩
  · intro l start stop step h
    rw [iterslice.eq_def, if_pos h]
  · intro l v t
    simp [iterslice, islice, everyNthFrom_one, starts_when, Cond.test, Except.map]
  · intro l v
    simp [iterslice, islice, everyNthFrom_one, stops_when, Cond.test, Cond.isTruthy,
      Except.map]
  · intro l start v step h
    rw [iterslice.eq_def, if_neg (by omega)]
    cases start <;> simp [Cond.isTruthy]

/-- C5 (witness): the amended theorem's negative-step half applied to a
concrete slice with step `-3`, and its falsy-stop half applied to a
concrete falsy value stop with step `1`. -/
theorem iterslice_boundary_amended_witness :
    iterslice ([5, 6] : List Nat) (.int 0) .none_ (-3)
      = .error (.valueErrorNegativeStep (-3)) ∧
    iterslice ([5, 6] : List Nat) (.int 0) (.cond (.val 7 false)) 1
      = .error .valueErrorIslice :=
  ⟨(iterslice_boundary_amended (α := Nat)).1 [5, 6] (.int 0) .none_ (-3) (by decide),
   (iterslice_boundary_amended (α := Nat)).2.2.2 [5, 6] (.int 0) 7 1 (by decide)⟩

/-- C1 (counterexample): slicing `[0, 1, 2, 3, 4]` with start predicate
`2 ≤ x`, stop `3` and step `1` yields `[2]` — the stop offset is
counted from the beginning of the source — and not the `[2, 3, 4]` the
claim requires when counting the stop offset from the skip point. -/
theorem iterslice_pred_int_stop_from_origin_cex :
    iterslice [0, 1, 2, 3, 4] (.cond (.fn (fun x => decide (2 ≤ x)))) (.int 3) 1
      ≠ .ok (([0, 1, 2, 3, 4].dropWhile (fun x => !(decide (2 ≤ x)))).take 3) := by
  decide

/-- C1 (amended): slicing with a predicate start `P`, an integer stop
`s ≥ 0` and step `1` first truncates the source to its first `s`
elements and then skips until `P` is first true: the stop offset is
counted from the beginning of the source, not from the skip point. -/
theorem iterslice_pred_int_amended [DecidableEq α] (l : List α) (P : α → Bool) (s : Nat) :
    iterslice l (.cond (.fn P)) (.int (s : Int)) 1
      = .ok ((l.take s).dropWhile (fun x => !(P x))) := by
  have hs : ¬((s : Int) < 0) := by omega
  simp [iterslice, islice, hs, everyNthFrom_one, starts_when, Cond.test, Except.map]

/-- Deduplication only ever drops elements: the output is a sublist of
the source, in source order. -/
theorem skip_duplicates_sublist [DecidableEq β] (key : α → β) (l : List α) :
    ∀ fps, List.Sublist (skip_duplicates key fps l) l := by
  induction l with
  | nil => intro fps; simp [skip_duplicates]
  | cons x xs ih =>
    intro fps
    simp only [skip_duplicates]
    split
    · exact (ih fps).cons x
    · exact (ih _).cons₂ x

/-- The fingerprints of the kept elements are pairwise distinct and
avoid the seed set. -/
theorem skip_duplicates_keys_nodup [DecidableEq β] (key : α → β) (l : List α) :
    ∀ fps, ((skip_duplicates key fps l).map key).Nodup ∧
      ∀ b ∈ (skip_duplicates key fps l).map key, b ∉ fps := by
  induction l with
  | nil => intro fps; simp [skip_duplicates]
  | cons x xs ih =>
    intro fps
    simp only [skip_duplicates]
    split
    · exact ih fps
    · rename_i hx
      obtain ⟨hn, hd⟩ := ih (key x :: fps)
      refine ⟨List.nodup_cons.mpr ⟨fun hmem => (hd _ hmem) (List.mem_cons_self _ _), hn⟩, ?_⟩
      intro b hb
      rcases List.mem_cons.mp hb with hb | hb
      · subst hb; exact hx
      · exact fun hbf => (hd b hb) (List.mem_cons_of_mem _ hbf)

/-- The kept element for a fingerprint not in the seed set is the first
source element with that fingerprint. -/
theorem skip_duplicates_find? [DecidableEq β] (key : α → β) (l : List α) :
    ∀ fps f, f ∉ fps →
      (skip_duplicates key fps l).find? (fun x => decide (key x = f))
        = l.find? (fun x => decide (key x = f)) := by
  induction l with
  | nil => intro fps f _; rfl
  | cons x xs ih =>
    intro fps f hf
    simp only [skip_duplicates]
    split
    · rename_i hx
      have hne : ¬(decide (key x = f) = true) := by
        simp only [decide_eq_true_eq]
        intro e; rw [e] at hx; exact hf hx
      rw [List.find?_cons_of_neg (p := fun y => decide (key y = f)) xs hne]
      exact ih fps f hf
    · rename_i hx
      by_cases e : key x = f
      · rw [List.find?_cons_of_pos (p := fun y => decide (key y = f))
              (skip_duplicates key (key x :: fps) xs) (by simpa using e),
            List.find?_cons_of_pos (p := fun y => decide (key y = f)) xs (by simpa using e)]
      · rw [List.find?_cons_of_neg (p := fun y => decide (key y = f))
              (skip_duplicates key (key x :: fps) xs) (by simpa using e),
            List.find?_cons_of_neg (p := fun y => decide (key y = f)) xs (by simpa using e)]
        refine ih _ f ?_
        intro hmem
        rcases List.mem_cons.mp hmem with hb | hb
        · exact e hb.symm
        · exact hf hb

/-- C9: with a fresh fingerprint set, `skip_duplicates` yields a
sublist of the source (source order preserved) whose fingerprints are
pairwise distinct, and for every fingerprint `f` the first kept element
testing equal to `f` is exactly the first source element testing equal
to `f` — i.e. exactly the elements whose fingerprint has not been seen
before are yielded, keeping the first occurrence of each fingerprint;
in particular `skip_duplicates` on `[1,2,3,4,4,2,1,3,4]` with the
identity fingerprint yields `[1,2,3,4]`. -/
theorem skip_duplicates_spec [DecidableEq β] (key : α → β) (l : List α) :
    List.Sublist (skip_duplicates key [] l) l ∧
    ((skip_duplicates key [] l).map key).Nodup ∧
    (∀ f, (skip_duplicates key [] l).find? (fun x => decide (key x = f))
        = l.find? (fun x => decide (key x = f))) ∧
    skip_duplicates (id : Nat → Nat) [] [1, 2, 3, 4, 4, 2, 1, 3, 4] = [1, 2, 3, 4] := by
  refine ⟨skip_duplicates_sublist key l [], (skip_duplicates_keys_nodup key l []).1,
    fun f => skip_duplicates_find? key l [] f (List.not_mem_nil f), by decide⟩

/-- The chunks of a non-empty-chunk-size run are well formed: the
generator succeeds, flattening reproduces the source, every chunk but
the last has exactly `n` elements, and every chunk is a non-empty list
of at most `n` elements. -/
theorem chunks_ok (n : Nat) (hn : 1 ≤ n) :
    ∀ (N : Nat) (l : List α), l.length ≤ N →
      ∃ cs, chunks l n = .ok cs ∧ cs.flatten = l ∧
        (∀ c ∈ cs.dropLast, c.length = n) ∧ ∀ c ∈ cs, c.length ≤ n ∧ c ≠ [] := by
  intro N
  induction N with
  | zero =>
    intro l hl
    have : l = [] := List.eq_nil_of_length_eq_zero (Nat.le_zero.mp hl)
    subst this
    exact ⟨[], by simp [chunks], by simp, by simp, by simp⟩
  | succ N ih =>
    intro l hl
    match l with
    | [] => exact ⟨[], by simp [chunks], by simp, by simp, by simp⟩
    | x :: xs =>
      have hlen : xs.length ≤ N := by simpa using hl
      have hdrop : (xs.drop (n - 1)).length ≤ N := by
        simp only [List.length_drop]; omega
      obtain ⟨cs, h1, h2, h3, h4⟩ := ih (xs.drop (n - 1)) hdrop
      refine ⟨(x :: xs.take (n - 1)) :: cs, ?_, ?_, ?_, ?_⟩
      · simp only [chunks]
        rw [if_neg (by omega), h1]
        rfl
      · simp only [List.flatten_cons, h2, List.cons_append, List.take_append_drop]
      · intro c hc
        cases cs with
        | nil => simp at hc
        | cons c1 cs2 =>
          have hxs : xs.drop (n - 1) ≠ [] := by
            intro hnil
            rw [hnil] at h1
            simp [chunks] at h1
          have hfull : (x :: xs.take (n - 1)).length = n := by
            have : n - 1 ≤ xs.length := by
              by_contra hcon
              exact hxs (List.drop_eq_nil_of_le (by omega))
            simp [List.length_take]
            omega
          rw [List.dropLast_cons₂] at hc
          rcases List.mem_cons.mp hc with hc | hc
          · rw [hc]; exact hfull
          · exact h3 c hc
      · intro c hc
        rcases List.mem_cons.mp hc with hc | hc
        · subst hc
          constructor
          · have : (xs.take (n - 1)).length ≤ n - 1 := by
              simp [List.length_take]
            simp only [List.length_cons]
            omega
          · simp
        · exact h4 c hc

/-- C6 (counterexample): `chunks` with chunk size `0` on the non-empty
source `[1]` raises a `ValueError`-class error (from
`itertools.islice(it, -1)`) instead of yielding chunks that flatten
back to the source. -/
theorem chunks_zero_cex : chunks ([1] : List Nat) 0 = .error .valueErrorIslice := by
  simp [chunks]

/-- C6 (amended): for every chunk size `n ≥ 1`, `chunks` succeeds and
flattening its output reproduces the source exactly, with every chunk
of size `n` except possibly the last, which may be shorter (and is
never empty); chunk size `0` instead raises a `ValueError`-class error
on a non-empty source. -/
theorem chunks_amended (l : List α) (n : Nat) (h : 1 ≤ n) :
    (chunks l n).isOk = true ∧
    ∀ cs, chunks l n = .ok cs →
      cs.flatten = l ∧ (∀ c ∈ cs.dropLast, c.length = n) ∧
        ∀ c ∈ cs, c.length ≤ n ∧ c ≠ [] := by
  obtain ⟨cs, h1, h2, h3, h4⟩ := chunks_ok n h l.length l le_rfl
  refine ⟨by rw [h1]; rfl, ?_⟩
  intro cs2 hcs2
  rw [h1] at hcs2
  cases hcs2
  exact ⟨h2, h3, h4⟩

/-- C6 (witness): the amended theorem applied to the source `[1,2,3]`
with chunk size `2`. -/
theorem chunks_amended_witness :
    (chunks ([1, 2, 3] : List Nat) 2).isOk = true ∧
    ∀ cs, chunks ([1, 2, 3] : List Nat) 2 = .ok cs →
      cs.flatten = [1, 2, 3] ∧ (∀ c ∈ cs.dropLast, c.length = 2) ∧
        ∀ c ∈ cs, c.length ≤ 2 ∧ c ≠ [] :=
  chunks_amended [1, 2, 3] 2 (by decide)

/-- Appending the next source element to a full window deque slides the
window one position to the right. -/
theorem dequeAppend_slide (l : List α) (k m : Nat) (h : m + k < l.length) :
    dequeAppend ((l.drop m).take k) (l.get ⟨m + k, h⟩) k = (l.drop (m + 1)).take k := by
  have hk : k ≤ (l.drop m).length := by
    simp only [List.length_drop]; omega
  have hlen : ((l.drop m).take k).length = k := by
    simp only [List.length_take]; omega
  have hget : (l.drop m)[k]? = some (l.get ⟨m + k, h⟩) := by
    rw [← head?_drop, List.drop_drop, head?_drop]
    exact List.getElem?_eq_getElem h
  have happ : (l.drop m).take k ++ [l.get ⟨m + k, h⟩] = (l.drop m).take (k + 1) := by
    rw [List.take_succ, hget]
    rfl
  rw [dequeAppend]
  simp only [List.length_append, hlen, List.length_cons, List.length_nil]
  rw [if_pos (by omega), happ]
  have : k + 1 - k = 1 := by omega
  rw [this, Nat.add_comm k 1]
  have hdt := List.take_drop 1 k (l.drop m)
  rw [← hdt, List.drop_drop]

/-- The yield loop of `window`, started at offset `m` of the source
with a full deque, produces the slice of windows from position `m`
onward. -/
theorem windowGo_eq (l : List α) (k : Nat) (rest : List α) :
    ∀ (m : Nat), m + k ≤ l.length → rest = l.drop (m + k) →
      windowGo k ((l.drop m).take k) rest
        = (List.range (l.length - (m + k) + 1)).map (fun i => (l.drop (m + i)).take k) := by
  induction rest with
  | nil =>
    intro m hle hrest
    have hlen : l.length = m + k := by
      have := congrArg List.length hrest
      simp only [List.length_nil, List.length_drop] at this
      omega
    rw [windowGo, hlen]
    have h1 : List.range 1 = [0] := rfl
    rw [Nat.sub_self, h1]
    simp
  | cons x xs ih =>
    intro m hle hrest
    have hlt : m + k < l.length := by
      by_contra hcon
      rw [List.drop_eq_nil_of_le (by omega)] at hrest
      exact List.cons_ne_nil x xs hrest
    have hdec := List.drop_eq_getElem_cons (l := l) hlt
    rw [hdec] at hrest
    have hx : x = l.get ⟨m + k, hlt⟩ := by
      have := List.cons_eq_cons.mp hrest
      exact this.1
    have hxs : xs = l.drop (m + 1 + k) := by
      have := (List.cons_eq_cons.mp hrest).2
      rw [this]
      congr 1
      omega
    rw [windowGo, hx, dequeAppend_slide l k m hlt,
        ih (m + 1) (by omega) hxs]
    have hsplit : l.length - (m + k) + 1 = (l.length - (m + 1 + k) + 1) + 1 := by
      omega
    have harg : ∀ i : Nat, m + (i + 1) = m + 1 + i := by omega
    conv_rhs => rw [hsplit, List.range_succ_eq_map, List.map_cons, List.map_map]
    have hmap : List.map (fun i => List.take k (List.drop (m + 1 + i) l))
          (List.range (l.length - (m + 1 + k) + 1))
        = List.map ((fun i => List.take k (List.drop (m + i) l)) ∘ Nat.succ)
          (List.range (l.length - (m + 1 + k) + 1)) := by
      apply List.map_congr_left
      intro i hi
      show List.take k (List.drop (m + 1 + i) l) = List.take k (List.drop (m + (i + 1)) l)
      rw [harg i]
    rw [hmap]
    simp

/-- C8: for every window size `k ≤ len(S)`, `window` (with the default
tuple cast) yields exactly `len(S) - k + 1` windows, the `j`-th window
being the `k` elements of `S` starting at position `j` — consecutive
windows advance by exactly one element — and every window has length
`k`. -/
theorem window_spec (l : List α) (k : Nat) (h : k ≤ l.length) :
    window l k = (List.range (l.length - k + 1)).map (fun j => (l.drop j).take k) ∧
    (window l k).length = l.length - k + 1 ∧
    ∀ w ∈ window l k, w.length = k := by
  have hmain : window l k
      = (List.range (l.length - k + 1)).map (fun j => (l.drop j).take k) := by
    have := windowGo_eq l k (l.drop k) 0 (by omega) (by simp)
    simpa [window] using this
  refine ⟨hmain, by rw [hmain]; simp, ?_⟩
  intro w hw
  rw [hmain] at hw
  simp only [List.mem_map, List.mem_range] at hw
  obtain ⟨j, hj, rfl⟩ := hw
  simp only [List.length_take, List.length_drop]
  omega

/-- C8 (witness): the window theorem applied to `[1, 2, 3, 4]` with
window size `2`. -/
theorem window_spec_witness :
    window ([1, 2, 3, 4] : List Nat) 2
      = (List.range (List.length ([1, 2, 3, 4] : List Nat) - 2 + 1)).map
          (fun j => (([1, 2, 3, 4] : List Nat).drop j).take 2) ∧
    (window ([1, 2, 3, 4] : List Nat) 2).length
      = List.length ([1, 2, 3, 4] : List Nat) - 2 + 1 ∧
    ∀ w ∈ window ([1, 2, 3, 4] : List Nat) 2, w.length = 2 :=
  window_spec [1, 2, 3, 4] 2 (by decide)

/-- Flattening the groups of `groupRuns` reproduces its input exactly. -/
theorem groupRuns_flatten [DecidableEq β] (keyf : α → β) (l : List α) :
    ((groupRuns keyf l).map Prod.snd).flatten = l := by
  induction l with
  | nil => rfl
  | cons x xs ih =>
    cases hG : groupRuns keyf xs with
    | nil =>
      have hxs : xs = [] := by rw [← ih, hG]; rfl
      subst hxs
      rfl
    | cons p rest =>
      obtain ⟨k, g⟩ := p
      rw [hG] at ih
      simp only [groupRuns, hG]
      split
      · simpa using ih
      · simpa using ih

/-- Every group of `groupRuns` is non-empty and homogeneous: all its
elements carry the group's key. -/
theorem groupRuns_groups [DecidableEq β] (keyf : α → β) (l : List α) :
    ∀ p ∈ groupRuns keyf l, p.2 ≠ [] ∧ ∀ a ∈ p.2, keyf a = p.1 := by
  induction l with
  | nil => intro p hp; simp [groupRuns] at hp
  | cons x xs ih =>
    intro p hp
    cases hG : groupRuns keyf xs with
    | nil =>
      simp only [groupRuns, hG, List.mem_singleton] at hp
      subst hp
      exact ⟨by simp, by simp⟩
    | cons q rest =>
      obtain ⟨k, g⟩ := q
      rw [hG] at ih
      simp only [groupRuns, hG] at hp
      split at hp
      · rename_i e
        rcases List.mem_cons.mp hp with hp | hp
        · subst hp
          have hhead := ih (k, g) (List.mem_cons_self _ _)
          refine ⟨by simp, ?_⟩
          intro a ha
          rcases List.mem_cons.mp ha with ha | ha
          · subst ha; exact e
          · exact hhead.2 a ha
        · exact ih p (List.mem_cons_of_mem _ hp)
      · rcases List.mem_cons.mp hp with hp | hp
        · subst hp
          exact ⟨by simp, by simp⟩
        · exact ih p hp

/-- Every element of a `groupRuns` group comes from the input list. -/
theorem groupRuns_mem_source [DecidableEq β] (keyf : α → β) (l : List α)
    {p : β × List α} {a : α} (hp : p ∈ groupRuns keyf l) (ha : a ∈ p.2) : a ∈ l := by
  rw [← groupRuns_flatten keyf l]
  exact List.mem_flatten.mpr ⟨p.2, List.mem_map_of_mem Prod.snd hp, ha⟩

/-- On an input whose keys are pairwise related by a reflexive-ish
order `le`, the group keys of `groupRuns` are pairwise related by the
corresponding strict order `lt` (supplied with its strictness-from-`le`
and transitivity witnesses).  Instantiated below with `≤`/`<` for the
ascending sort and their duals for the descending one. -/
theorem groupRuns_keys_pairwise_of [DecidableEq β] (keyf : α → β)
    (le lt : β → β → Prop)
    (hstrict : ∀ a b, le a b → a ≠ b → lt a b)
    (htrans : ∀ a b c, lt a b → lt b c → lt a c) (l : List α)
    (hs : l.Pairwise (fun a b => le (keyf a) (keyf b))) :
    (groupRuns keyf l).Pairwise (fun p q => lt p.1 q.1) := by
  induction l with
  | nil => simp [groupRuns]
  | cons x xs ih =>
    have hhead := (List.pairwise_cons.mp hs).1
    have htail := (List.pairwise_cons.mp hs).2
    have ihp := ih htail
    cases hG : groupRuns keyf xs with
    | nil => simp [groupRuns, hG]
    | cons q rest =>
      obtain ⟨k, g⟩ := q
      rw [hG] at ihp
      have hq : (k, g) ∈ groupRuns keyf xs := by rw [hG]; exact List.mem_cons_self _ _
      have hkg := groupRuns_groups keyf xs (k, g) hq
      obtain ⟨a, ha⟩ := List.exists_mem_of_ne_nil _ hkg.1
      have hak : keyf a = k := hkg.2 a ha
      have haxs : a ∈ xs := groupRuns_mem_source keyf xs hq ha
      have hxk : le (keyf x) k := hak ▸ hhead a haxs
      simp only [groupRuns, hG]
      split
      · rename_i e
        refine List.pairwise_cons.mpr ⟨?_, (List.pairwise_cons.mp ihp).2⟩
        intro q hq2
        have := (List.pairwise_cons.mp ihp).1 q hq2
        simpa using this
      · rename_i e
        have hlt : lt (keyf x) k := hstrict _ _ hxk e
        refine List.pairwise_cons.mpr ⟨?_, ihp⟩
        intro q hq2
        rcases List.mem_cons.mp hq2 with hq2 | hq2
        · subst hq2; exact hlt
        · exact htrans _ _ _ hlt ((List.pairwise_cons.mp ihp).1 q hq2)

/-- C7: `groupby` sorts the whole input by the key function first —
ascending by default, descending when `reverse` — and then groups
consecutive equal keys: on the motivating input keyed on the second
component it regroups `(6, true)` with the other `true` items, and in
general the yielded keys are strictly increasing with `reverse =
false` and strictly decreasing with `reverse = true`, the groups are
non-empty and homogeneous in their key, and flattening all groups is a
permutation of the input, in both modes. -/
theorem groupby_sorts_then_groups [LinearOrder β] (l : List α) (keyf : α → β) :
    groupby [(1, true), (2, true), (3, true), (4, false), (5, false), (6, true)]
        (Prod.snd : Nat × Bool → Bool) false
      = [(false, [(4, false), (5, false)]),
         (true, [(1, true), (2, true), (3, true), (6, true)])] ∧
    ((groupby l keyf false).Pairwise (fun p q => p.1 < q.1) ∧
     List.Perm (((groupby l keyf false).map Prod.snd).flatten) l ∧
     ∀ p ∈ groupby l keyf false, p.2 ≠ [] ∧ ∀ a ∈ p.2, keyf a = p.1) ∧
    ((groupby l keyf true).Pairwise (fun p q => q.1 < p.1) ∧
     List.Perm (((groupby l keyf true).map Prod.snd).flatten) l ∧
     ∀ p ∈ groupby l keyf true, p.2 ≠ [] ∧ ∀ a ∈ p.2, keyf a = p.1) := by
  haveI : IsTotal α (fun a b => keyf a ≤ keyf b) := ⟨fun a b => le_total (keyf a) (keyf b)⟩
  haveI : IsTrans α (fun a b => keyf a ≤ keyf b) := ⟨fun _ _ _ hab hbc => le_trans hab hbc⟩
  haveI : IsTotal α (fun a b => keyf b ≤ keyf a) := ⟨fun a b => le_total (keyf b) (keyf a)⟩
  haveI : IsTrans α (fun a b => keyf b ≤ keyf a) := ⟨fun _ _ _ hab hbc => le_trans hbc hab⟩
  refine ⟨by decide, ⟨?_, ?_, ?_⟩, ⟨?_, ?_, ?_⟩⟩
  · exact groupRuns_keys_pairwise_of keyf (· ≤ ·) (· < ·)
      (fun _ _ h e => lt_of_le_of_ne h e) (fun _ _ _ h1 h2 => lt_trans h1 h2) _
      (List.sorted_insertionSort (fun a b => keyf a ≤ keyf b) l)
  · rw [groupby, sortByKey, if_neg (by simp), groupRuns_flatten]
    exact List.perm_insertionSort (fun a b => keyf a ≤ keyf b) l
  · exact groupRuns_groups keyf _
  · exact groupRuns_keys_pairwise_of keyf (fun u v => v ≤ u) (fun u v => v < u)
      (fun _ _ h e => lt_of_le_of_ne h (Ne.symm e)) (fun _ _ _ h1 h2 => lt_trans h2 h1) _
      (List.sorted_insertionSort (fun a b => keyf b ≤ keyf a) l)
  · rw [groupby, sortByKey, if_pos (by simp), groupRuns_flatten]
    exact List.perm_insertionSort (fun a b => keyf b ≤ keyf a) l
  · exact groupRuns_groups keyf _

/-- C7 (witness): the grouping theorem applied to the two-element list
`[10, 11]` keyed by the identity, evaluated at the group `(10, [10])`
of the ascending output and at the group `(11, [11])` of the
descending output. -/
theorem groupby_sorts_then_groups_witness :
    (((10 : Nat), [10]).2 ≠ [] ∧
      ∀ a ∈ ((10 : Nat), [10]).2, (id : Nat → Nat) a = (10, [10]).1) ∧
    (((11 : Nat), [11]).2 ≠ [] ∧
      ∀ a ∈ ((11 : Nat), [11]).2, (id : Nat → Nat) a = (11, [11]).1) :=
  ⟨(groupby_sorts_then_groups [10, 11] (id : Nat → Nat)).2.1.2.2 (10, [10]) (by decide),
   (groupby_sorts_then_groups [10, 11] (id : Nat → Nat)).2.2.2.2 (11, [11]) (by decide)⟩

end WW
